import Mathlib

/-!
Shallow embedding of the Money value type and its operations.

The program consists of two Python files: `project_2.py` defines the `Money`
class (construction with rounding, arithmetic and comparison operators over a
currency registry) and `project.py` defines `AdvancedMoney`, a subclass adding
`split`, `allocate`, `compound_interest`, `present_value`, `sum`, `max`, `min`
and `apply_discount`.  Python `Decimal` values are modelled as exact rationals
(`ℚ`); `Decimal.quantize` with `ROUND_HALF_UP` / `ROUND_DOWN` becomes explicit
rounding on rationals; operations that can raise become `Except`-valued
functions.  Python object identity (which the class falls back to for `==`,
having no `__eq__`) is modelled by pairing a `Money` value with an object id.
-/

/-- The currency registry `VALID_CURRENCIES` of `project_2.py`: the two
registered currency codes. -/
inductive Cur where
  | USD
  | EUR
deriving DecidableEq, Repr

/-- The `decimals` field of the registry entry: both registered currencies
carry 2 decimal places. -/
def decimals : Cur → ℕ
  | .USD => 2
  | .EUR => 2

/-- The `symbol` field of the registry entry. -/
def symbol : Cur → String
  | .USD => "$"
  | .EUR => "E"

/-- Failures the program can raise: `InvalidCurrencyError`,
`IncompatibleCurrencyError` (carrying the two currency codes its message
names, in message order), Python `TypeError`, `ValueError`, `IndexError`
and `decimal.DivisionByZero`. -/
inductive MErr where
  | invalidCurrency
  | incompatible (a b : Cur)
  | typeMismatch
  | valueError
  | indexError
  | zeroDivision
deriving DecidableEq, Repr

/-- `Decimal.quantize(..., rounding=ROUND_HALF_UP)` to an integer: round to
the nearest integer, a tie of exactly one half going away from zero. -/
def rhu (q : ℚ) : ℤ :=
  if 0 ≤ q then ⌊q + 1 / 2⌋ else -⌊-q + 1 / 2⌋

/-- Truncation toward zero, as performed by Python `int()` on a `Decimal`,
by `Decimal` floor division `//`, and by the integer quotient of
`divmod` on `Decimal`s. -/
def ratTrunc (q : ℚ) : ℤ :=
  if 0 ≤ q then ⌊q⌋ else ⌈q⌉

/-- `Decimal.quantize` to `d` fractional digits with `ROUND_HALF_UP`. -/
def qHalfUp (d : ℕ) (q : ℚ) : ℚ :=
  (rhu (q * 10 ^ d) : ℚ) / 10 ^ d

/-- `Decimal.quantize` to `d` fractional digits with `ROUND_DOWN`
(truncation toward zero). -/
def qTruncTo (d : ℕ) (q : ℚ) : ℚ :=
  (ratTrunc (q * 10 ^ d) : ℚ) / 10 ^ d

/-- An immutable Money value: exact decimal amount plus registered
currency.  (`Money._amount`, `Money._currency` in `project_2.py`.) -/
@[ext] structure Money where
  amount : ℚ
  currency : Cur
deriving DecidableEq, Repr

/-- `Money.__init__`: store the currency and the input amount rounded to the
currency's number of decimal places with `ROUND_HALF_UP`; when the registry
records zero decimal places the amount is stored unrounded. -/
def mkMoney (a : ℚ) (c : Cur) : Money :=
  if 0 < decimals c then ⟨qHalfUp (decimals c) a, c⟩ else ⟨a, c⟩

/-- `Money.__add__` on a `Money` operand: currency check, then reconstruct
from the sum of amounts. -/
def Money.add (a b : Money) : Except MErr Money :=
  if a.currency ≠ b.currency then .error (.incompatible a.currency b.currency)
  else .ok (mkMoney (a.amount + b.amount) a.currency)

/-- `Money.__add__` (and `__radd__`) on a numeric operand. -/
def Money.addNum (a : Money) (x : ℚ) : Money :=
  mkMoney (a.amount + x) a.currency

/-- `Money.__sub__` on a `Money` operand; its error message names the
subtrahend's currency first ("Cannot subtract B from A"). -/
def Money.sub (a b : Money) : Except MErr Money :=
  if a.currency ≠ b.currency then .error (.incompatible b.currency a.currency)
  else .ok (mkMoney (a.amount - b.amount) a.currency)

/-- `Money.__sub__` on a numeric operand. -/
def Money.subNum (a : Money) (x : ℚ) : Money :=
  mkMoney (a.amount - x) a.currency

/-- `Money.__rsub__`: numeric minus Money. -/
def Money.rsubNum (a : Money) (x : ℚ) : Money :=
  mkMoney (x - a.amount) a.currency

/-- `Money.__mul__` on a `Money` operand: always a `TypeError`, regardless
of the currencies. -/
def Money.mulMoney (_ _ : Money) : Except MErr Money :=
  .error .typeMismatch

/-- `Money.__mul__` (and `__rmul__`) on a numeric operand. -/
def Money.mulNum (a : Money) (x : ℚ) : Money :=
  mkMoney (a.amount * x) a.currency

/-- `Money.__truediv__` on a `Money` operand: same-currency division yields a
plain dimensionless decimal, not a Money. -/
def Money.divMoney (a b : Money) : Except MErr ℚ :=
  if a.currency ≠ b.currency then .error (.incompatible a.currency b.currency)
  else if b.amount = 0 then .error .zeroDivision
  else .ok (a.amount / b.amount)

/-- `Money.__truediv__` on a numeric operand: yields Money. -/
def Money.divNum (a : Money) (x : ℚ) : Except MErr Money :=
  if x = 0 then .error .zeroDivision
  else .ok (mkMoney (a.amount / x) a.currency)

/-- `Money.__floordiv__` on a `Money` operand: the truncated integer
quotient of the two `Decimal` amounts, as a plain decimal. -/
def Money.floordivMoney (a b : Money) : Except MErr ℚ :=
  if a.currency ≠ b.currency then .error (.incompatible a.currency b.currency)
  else if b.amount = 0 then .error .zeroDivision
  else .ok (ratTrunc (a.amount / b.amount) : ℚ)

/-- `Money.__floordiv__` on a numeric operand: yields Money. -/
def Money.floordivNum (a : Money) (x : ℚ) : Except MErr Money :=
  if x = 0 then .error .zeroDivision
  else .ok (mkMoney ((ratTrunc (a.amount / x) : ℤ) : ℚ) a.currency)

/-- `Money.__mod__` on a `Money` operand: `Decimal` remainder
`a - b * trunc(a / b)` (sign of the dividend), reconstructed as Money. -/
def Money.modMoney (a b : Money) : Except MErr Money :=
  if a.currency ≠ b.currency then .error (.incompatible a.currency b.currency)
  else if b.amount = 0 then .error .zeroDivision
  else .ok (mkMoney (a.amount - b.amount * (ratTrunc (a.amount / b.amount) : ℚ)) a.currency)

/-- `Money.__mod__` on a numeric operand. -/
def Money.modNum (a : Money) (x : ℚ) : Except MErr Money :=
  if x = 0 then .error .zeroDivision
  else .ok (mkMoney (a.amount - x * (ratTrunc (a.amount / x) : ℚ)) a.currency)

/-- `Money.__neg__`. -/
def Money.neg (a : Money) : Money :=
  mkMoney (-a.amount) a.currency

/-- `Money.__abs__`. -/
def Money.abs (a : Money) : Money :=
  mkMoney |a.amount| a.currency

/-- `Money.__lt__` between two Money values: currency check, then amount
comparison.  (The `TypeError` branch for non-Money operands lives in
`pyLt` below, which also models object identity.) -/
def Money.ltv (a b : Money) : Except MErr Bool :=
  if a.currency ≠ b.currency then .error (.incompatible a.currency b.currency)
  else .ok (decide (a.amount < b.amount))

/-- `Money.__gt__` between two Money values. -/
def Money.gtv (a b : Money) : Except MErr Bool :=
  if a.currency ≠ b.currency then .error (.incompatible a.currency b.currency)
  else .ok (decide (b.amount < a.amount))

/-- A Money object at runtime: a Money value together with its Python
object identity. -/
structure MoneyObj where
  oid : ℕ
  val : Money
deriving DecidableEq, Repr

/-- An arbitrary comparison operand: either a Money object or a non-Money
object, each with its object identity. -/
inductive PyVal where
  | moneyVal (oid : ℕ) (m : Money)
  | nonMoney (oid : ℕ)
deriving DecidableEq, Repr

/-- Object identity of an operand. -/
def PyVal.oid : PyVal → ℕ
  | .moneyVal i _ => i
  | .nonMoney i => i

/-- `Money.__lt__`: a `TypeError` on a non-Money operand, an
incompatible-currency failure across currencies, otherwise amount order. -/
def pyLt (a : MoneyObj) (x : PyVal) : Except MErr Bool :=
  match x with
  | .nonMoney _ => .error .typeMismatch
  | .moneyVal _ m => a.val.ltv m

/-- `Money.__gt__`. -/
def pyGt (a : MoneyObj) (x : PyVal) : Except MErr Bool :=
  match x with
  | .nonMoney _ => .error .typeMismatch
  | .moneyVal _ m => a.val.gtv m

/-- Python `==` on a Money object: the class defines no `__eq__`, so default
object identity applies; it never raises. -/
def pyEq (a : MoneyObj) (x : PyVal) : Bool :=
  a.oid == x.oid

/-- `Money.__le__`: literally `self < other or self == other`. -/
def pyLe (a : MoneyObj) (x : PyVal) : Except MErr Bool :=
  match pyLt a x with
  | .error e => .error e
  | .ok l => .ok (l || pyEq a x)

/-- `Money.__ge__`: literally `self > other or self == other`. -/
def pyGe (a : MoneyObj) (x : PyVal) : Except MErr Bool :=
  match pyGt a x with
  | .error e => .error e
  | .ok l => .ok (l || pyEq a x)

/-- The loop `for i in range(k): amounts[i] += Money(Decimal('0.01'), cur)`
of `AdvancedMoney.split`: add one cent to each of the first `k` list
entries via `Money.__add__`; running past the end of the list is the
`IndexError` the interpreter raises there. -/
def bumpFirst (c : Cur) : ℕ → List Money → Except MErr (List Money)
  | 0, l => .ok l
  | _ + 1, [] => .error .indexError
  | k + 1, x :: xs =>
    match x.add (mkMoney (1 / 100) c) with
    | .error e => .error e
    | .ok x' =>
      match bumpFirst c k xs with
      | .error e => .error e
      | .ok xs' => .ok (x' :: xs')

/-- `AdvancedMoney.split`: `ValueError` on a non-positive count; otherwise
`quotient, remainder = divmod(self._amount, ways)` (truncated integer
quotient of the `Decimal` division), a list of `ways` copies of
`Money(quotient)`, then `remainder * 10 ** decimals` truncated to an int
many one-cent increments applied from index 0 upward. -/
def Money.split (m : Money) (ways : ℤ) : Except MErr (List Money) :=
  if ways ≤ 0 then .error .valueError
  else
    let q : ℤ := ratTrunc (m.amount / (ways : ℚ))
    let r : ℚ := m.amount - (ways : ℚ) * (q : ℚ)
    let rc : ℤ := ratTrunc (r * 10 ^ decimals m.currency)
    bumpFirst m.currency rc.toNat (List.replicate ways.toNat (mkMoney (q : ℚ) m.currency))

/-- The allocation loop of `AdvancedMoney.allocate`: every ratio but the
last takes `quantize(amount * ratio / total, '0.01', ROUND_DOWN)` and is
subtracted from `remaining`; the last ratio takes `Money(remaining)`. -/
def allocGo (amount : ℚ) (c : Cur) (total : ℚ) : ℚ → List ℚ → List Money
  | _, [] => []
  | remaining, [_] => [mkMoney remaining c]
  | remaining, r :: r2 :: rest =>
    mkMoney (qTruncTo 2 (amount * r / total)) c ::
      allocGo amount c total (remaining - qTruncTo 2 (amount * r / total)) (r2 :: rest)

/-- `AdvancedMoney.allocate`: `ValueError` when the ratio list is empty or
every ratio is non-positive, otherwise the allocation loop over the whole
list with `total_ratio = sum(ratios)`. -/
def Money.allocate (m : Money) (ratios : List ℚ) : Except MErr (List Money) :=
  if ratios.isEmpty || ratios.all (fun r => decide (r ≤ 0)) then .error .valueError
  else .ok (allocGo m.amount m.currency ratios.sum m.amount ratios)

/-- `AdvancedMoney.compound_interest`: zero Money for `periods <= 0`,
otherwise `Money(amount * (1 + rate) ** periods - amount)`. -/
def Money.compound_interest (m : Money) (rate : ℚ) (periods : ℤ) : Money :=
  if periods ≤ 0 then mkMoney 0 m.currency
  else mkMoney (m.amount * (1 + rate) ^ periods.toNat - m.amount) m.currency

/-- `AdvancedMoney.present_value`: the input reconstructed unchanged for
`periods <= 0`, otherwise `Money(amount / (1 + rate) ** periods)`; a zero
divisor is the `Decimal` division-by-zero failure. -/
def Money.present_value (m : Money) (rate : ℚ) (periods : ℤ) : Except MErr Money :=
  if periods ≤ 0 then .ok (mkMoney m.amount m.currency)
  else if (1 + rate) ^ periods.toNat = 0 then .error .zeroDivision
  else .ok (mkMoney (m.amount / (1 + rate) ^ periods.toNat) m.currency)

/-- `AdvancedMoney.apply_discount`: `discount = self * rate`, returning
`(self - discount, discount)`. -/
def Money.apply_discount (m : Money) (rate : ℚ) : Except MErr (Money × Money) :=
  match m.sub (m.mulNum rate) with
  | .error e => .error e
  | .ok payable => .ok (payable, m.mulNum rate)

/-- The loop of `AdvancedMoney.sum`: `result += money` over the tail. -/
def sumGo (acc : Money) : List Money → Except MErr Money
  | [] => .ok acc
  | y :: ys =>
    match Money.add acc y with
    | .error e => .error e
    | .ok s => sumGo s ys

/-- `AdvancedMoney.sum`: `None` on the empty list, otherwise the left fold
of `Money.__add__` started at the first element. -/
def Money.sum : List Money → Except MErr (Option Money)
  | [] => .ok none
  | x :: xs =>
    match sumGo x xs with
    | .error e => .error e
    | .ok s => .ok (some s)

/-- The scan of Python builtin `max`: keep the current best, replacing it
when `item > best` (so the first of several equals is kept). -/
def maxGo (acc : Money) : List Money → Except MErr Money
  | [] => .ok acc
  | y :: ys =>
    match Money.gtv y acc with
    | .error e => .error e
    | .ok b => maxGo (if b then y else acc) ys

/-- `AdvancedMoney.max`: `None` on the empty list, `max(money_list)`
otherwise. -/
def Money.max : List Money → Except MErr (Option Money)
  | [] => .ok none
  | x :: xs =>
    match maxGo x xs with
    | .error e => .error e
    | .ok s => .ok (some s)

/-- The scan of Python builtin `min`: replace the current best when
`item < best`. -/
def minGo (acc : Money) : List Money → Except MErr Money
  | [] => .ok acc
  | y :: ys =>
    match Money.ltv y acc with
    | .error e => .error e
    | .ok b => minGo (if b then y else acc) ys

/-- `AdvancedMoney.min`: `None` on the empty list, `min(money_list)`
otherwise. -/
def Money.min : List Money → Except MErr (Option Money)
  | [] => .ok none
  | x :: xs =>
    match minGo x xs with
    | .error e => .error e
    | .ok s => .ok (some s)

/-- The quantization invariant of the data model: the amount is an integer
multiple of the currency's minor unit `10 ^ (-decimals)`. -/
def Quantized (m : Money) : Prop :=
  ∃ n : ℤ, m.amount = (n : ℚ) / 10 ^ decimals m.currency

/-- The spec's description of `allocate`, stated in its own words: every
share but the last is `amount × ratio / total` truncated toward zero at the
currency's minor unit, and the final share is the amount minus the sum of
the previous shares. -/
def allocateSpec (m : Money) (R : List ℚ) : List Money :=
  (R.dropLast.map (fun r => qTruncTo (decimals m.currency) (m.amount * r / R.sum))).map
      (fun s => mkMoney s m.currency)
    ++ [mkMoney
          (m.amount
            - (R.dropLast.map (fun r => qTruncTo (decimals m.currency) (m.amount * r / R.sum))).sum)
          m.currency]

/-! ### Basic facts about the registry and the rounding helpers -/

theorem decimals_pos (c : Cur) : 0 < decimals c := by
  cases c <;> simp [decimals]

theorem decimals_two (c : Cur) : decimals c = 2 := by
  cases c <;> rfl

theorem ten_pow_ne (d : ℕ) : ((10 : ℚ) ^ d) ≠ 0 := by
  positivity

theorem rhu_intCast (n : ℤ) : rhu (n : ℚ) = n := by
  unfold rhu
  rcases le_or_lt 0 (n : ℚ) with h | h
  · rw [if_pos h, Int.floor_int_add]
    norm_num
  · rw [if_neg (not_le.mpr h)]
    rw [show (-(n : ℚ)) = ((-n : ℤ) : ℚ) by push_cast; ring, Int.floor_int_add]
    norm_num

theorem qHalfUp_fix (d : ℕ) (n : ℤ) : qHalfUp d ((n : ℚ) / 10 ^ d) = (n : ℚ) / 10 ^ d := by
  unfold qHalfUp
  rw [div_mul_cancel₀ _ (ten_pow_ne d), rhu_intCast]

theorem qTruncTo_shape (d : ℕ) (q : ℚ) :
    ∃ n : ℤ, qTruncTo d q = (n : ℚ) / 10 ^ d :=
  ⟨ratTrunc (q * 10 ^ d), rfl⟩

theorem mkMoney_amount (a : ℚ) (c : Cur) :
    (mkMoney a c).amount = qHalfUp (decimals c) a := by
  unfold mkMoney
  rw [if_pos (decimals_pos c)]

theorem mkMoney_currency (a : ℚ) (c : Cur) : (mkMoney a c).currency = c := by
  unfold mkMoney
  split <;> rfl

theorem quantized_mkMoney (a : ℚ) (c : Cur) : Quantized (mkMoney a c) := by
  refine ⟨rhu (a * 10 ^ decimals c), ?_⟩
  rw [mkMoney_amount, mkMoney_currency]
  rfl

theorem mkMoney_fix {x : ℚ} {c : Cur} (h : ∃ n : ℤ, x = (n : ℚ) / 10 ^ decimals c) :
    (mkMoney x c).amount = x := by
  obtain ⟨n, rfl⟩ := h
  rw [mkMoney_amount, qHalfUp_fix]

theorem mkMoney_self {m : Money} (h : Quantized m) : mkMoney m.amount m.currency = m := by
  obtain ⟨n, hn⟩ := h
  ext
  · rw [mkMoney_fix ⟨n, hn⟩]
  · rw [mkMoney_currency]

/-- Restating the quantization invariant over cents: with both registered
currencies at two decimal places the amount is an integer number of
hundredths. -/
theorem quantized_iff_cents (m : Money) :
    Quantized m ↔ ∃ n : ℤ, m.amount = (n : ℚ) / 100 := by
  unfold Quantized
  rw [decimals_two]
  norm_num

theorem cents_add {x y : ℚ} (hx : ∃ n : ℤ, x = (n : ℚ) / 100)
    (hy : ∃ n : ℤ, y = (n : ℚ) / 100) : ∃ n : ℤ, x + y = (n : ℚ) / 100 := by
  obtain ⟨n, rfl⟩ := hx
  obtain ⟨k, rfl⟩ := hy
  exact ⟨n + k, by push_cast; ring⟩

theorem cents_sub {x y : ℚ} (hx : ∃ n : ℤ, x = (n : ℚ) / 100)
    (hy : ∃ n : ℤ, y = (n : ℚ) / 100) : ∃ n : ℤ, x - y = (n : ℚ) / 100 := by
  obtain ⟨n, rfl⟩ := hx
  obtain ⟨k, rfl⟩ := hy
  exact ⟨n - k, by push_cast; ring⟩

theorem quantized_amount_cents {m : Money} (h : Quantized m) :
    ∃ n : ℤ, m.amount = (n : ℚ) / 100 :=
  (quantized_iff_cents m).mp h

theorem mkMoney_fix_cents {x : ℚ} {c : Cur} (h : ∃ n : ℤ, x = (n : ℚ) / 100) :
    (mkMoney x c).amount = x := by
  refine mkMoney_fix ?_
  rw [decimals_two]
  norm_num
  exact h

/-! ### Round-half-up characterization -/

theorem rhu_close (x : ℚ) : |x - (rhu x : ℚ)| ≤ 1 / 2 := by
  unfold rhu
  rcases le_or_lt 0 x with h | h
  · rw [if_pos h]
    have h1 : ((⌊x + 1 / 2⌋ : ℤ) : ℚ) ≤ x + 1 / 2 := Int.floor_le _
    have h2 : x + 1 / 2 < (⌊x + 1 / 2⌋ : ℤ) + 1 := Int.lt_floor_add_one _
    rw [abs_le]
    constructor <;> linarith
  · rw [if_neg (not_le.mpr h)]
    have h1 : ((⌊-x + 1 / 2⌋ : ℤ) : ℚ) ≤ -x + 1 / 2 := Int.floor_le _
    have h2 : -x + 1 / 2 < (⌊-x + 1 / 2⌋ : ℤ) + 1 := Int.lt_floor_add_one _
    rw [abs_le]
    push_cast
    constructor <;> linarith

theorem rhu_tie_away (x : ℚ) (h : |x - (rhu x : ℚ)| = 1 / 2) :
    |x| ≤ |(rhu x : ℚ)| := by
  unfold rhu at *
  rcases le_or_lt 0 x with hx | hx
  · rw [if_pos hx] at h ⊢
    have h2 : x + 1 / 2 < (⌊x + 1 / 2⌋ : ℤ) + 1 := Int.lt_floor_add_one _
    rcases (abs_eq (by norm_num : (0:ℚ) ≤ 1 / 2)).mp h with he | he
    · linarith
    · have hn : (0:ℚ) ≤ (⌊x + 1 / 2⌋ : ℤ) := by linarith
      rw [abs_of_nonneg hx, abs_of_nonneg hn]
      linarith
  · rw [if_neg (not_le.mpr hx)] at h ⊢
    have h1 : ((⌊-x + 1 / 2⌋ : ℤ) : ℚ) ≤ -x + 1 / 2 := Int.floor_le _
    have h2 : -x + 1 / 2 < (⌊-x + 1 / 2⌋ : ℤ) + 1 := Int.lt_floor_add_one _
    push_cast at h ⊢
    rcases (abs_eq (by norm_num : (0:ℚ) ≤ 1 / 2)).mp h with he | he
    · rw [abs_of_nonpos hx.le, abs_of_nonpos (by linarith : -((⌊-x + 1 / 2⌋ : ℤ) : ℚ) ≤ 0)]
      linarith
    · linarith

/-- C3.  Construction rounding: for every rational input and every
registered currency, the constructed amount is an integer count `n` of
minor units where `n` is within half a minor unit of the exact scaled
input, and an exact half-unit discrepancy always lands on the side of
larger magnitude (round half away from zero); in particular `19.995` in
the 2-decimal currency USD constructs as `20.00`. -/
theorem construction_round_half_up :
    (∀ (a : ℚ) (c : Cur), ∃ n : ℤ,
        (mkMoney a c).amount = (n : ℚ) / 10 ^ decimals c ∧
        |a * 10 ^ decimals c - (n : ℚ)| ≤ 1 / 2 ∧
        (|a * 10 ^ decimals c - (n : ℚ)| = 1 / 2 → |a * 10 ^ decimals c| ≤ |(n : ℚ)|)) ∧
    (mkMoney (19995 / 1000) Cur.USD).amount = 20 := by
  constructor
  · intro a c
    exact ⟨rhu (a * 10 ^ decimals c), by rw [mkMoney_amount]; rfl,
      rhu_close _, fun h => rhu_tie_away _ h⟩
  · rw [mkMoney_amount]
    norm_num [qHalfUp, rhu, decimals]

/-- Witness for C3 at the concrete input `19.995` USD. -/
theorem construction_round_half_up_witness :
    (mkMoney (19995 / 1000) Cur.USD).amount = 20 :=
  construction_round_half_up.2

/-! ### The split loop runs off the end of the share list -/

theorem bumpFirst_overflow (c : Cur) :
    ∀ (l : List Money) (k : ℕ), (∀ x ∈ l, x.currency = c) → l.length < k →
      bumpFirst c k l = .error .indexError := by
  intro l
  induction l with
  | nil =>
    intro k _ hk
    match k, hk with
    | k + 1, _ => rfl
  | cons x xs ih =>
    intro k hcur hk
    match k, hk with
    | k + 1, hk =>
      have hx : x.currency = c := hcur x (List.mem_cons_self x xs)
      have hrec : bumpFirst c k xs = .error .indexError := by
        refine ih k (fun y hy => hcur y (List.mem_cons_of_mem x hy)) ?_
        simp only [List.length_cons] at hk
        omega
      have hadd : x.add (mkMoney (1 / 100) c)
          = .ok (mkMoney (x.amount + (mkMoney (1 / 100) c).amount) x.currency) := by
        unfold Money.add
        rw [if_neg (by rw [hx, mkMoney_currency]; exact fun h => h rfl)]
      simp only [bumpFirst, hadd, hrec]

theorem split_pos (m : Money) (w : ℤ) (h : ¬ w ≤ 0) :
    Money.split m w =
      bumpFirst m.currency
        (ratTrunc ((m.amount - (w : ℚ) * (ratTrunc (m.amount / (w : ℚ)) : ℚ))
            * 10 ^ decimals m.currency)).toNat
        (List.replicate w.toNat
          (mkMoney ((ratTrunc (m.amount / (w : ℚ)) : ℤ) : ℚ) m.currency)) := by
  unfold Money.split
  rw [if_neg h]

/-- C1.  On the spec's own worked example `split(127.83 USD, 5)` the code
raises `IndexError` instead of returning five conserving shares: `divmod`
on a `Decimal` produces the integer quotient `25` and remainder `2.83`, so
`remainder_cents = 283` one-cent increments are attempted on a 5-element
list. -/
theorem split_12783_crashes :
    Money.split (mkMoney (12783 / 100) Cur.USD) 5 = .error .indexError := by
  have hamt : (mkMoney (12783 / 100) Cur.USD).amount = 12783 / 100 := by
    rw [mkMoney_amount]
    norm_num [qHalfUp, rhu, decimals]
  have hcur : (mkMoney (12783 / 100) Cur.USD).currency = Cur.USD := mkMoney_currency _ _
  rw [split_pos _ _ (by norm_num)]
  norm_num [hamt, hcur, ratTrunc, decimals]
  apply bumpFirst_overflow
  · intro x hx
    rw [List.eq_of_mem_replicate hx, mkMoney_currency]
  · norm_num

/-! ### Allocation conservation -/

theorem qTruncTo2_cents (q : ℚ) : ∃ n : ℤ, qTruncTo 2 q = (n : ℚ) / 100 :=
  ⟨ratTrunc (q * 10 ^ 2), by unfold qTruncTo; norm_num⟩

theorem cents_listSum (l : List ℚ) (h : ∀ x ∈ l, ∃ n : ℤ, x = (n : ℚ) / 100) :
    ∃ n : ℤ, l.sum = (n : ℚ) / 100 := by
  induction l with
  | nil => exact ⟨0, by simp⟩
  | cons x xs ih =>
    rw [List.sum_cons]
    exact cents_add (h x (List.mem_cons_self x xs))
      (ih fun y hy => h y (List.mem_cons_of_mem x hy))

theorem allocGo_eq (a : ℚ) (c : Cur) (t : ℚ) :
    ∀ (R : List ℚ) (rem : ℚ), R ≠ [] →
      allocGo a c t rem R =
        (R.dropLast.map (fun r => qTruncTo 2 (a * r / t))).map (fun s => mkMoney s c)
          ++ [mkMoney (rem - (R.dropLast.map (fun r => qTruncTo 2 (a * r / t))).sum) c] := by
  intro R
  induction R with
  | nil => intro rem h; exact absurd rfl h
  | cons r rest ih =>
    intro rem _
    cases rest with
    | nil => simp [allocGo]
    | cons r2 rest2 =>
      rw [show allocGo a c t rem (r :: r2 :: rest2)
            = mkMoney (qTruncTo 2 (a * r / t)) c ::
                allocGo a c t (rem - qTruncTo 2 (a * r / t)) (r2 :: rest2) from rfl,
        ih _ (by simp)]
      simp [List.dropLast_cons₂, sub_sub]

theorem allocateSpec_eq_code (m : Money) (R : List ℚ) (h : R ≠ []) :
    allocGo m.amount m.currency R.sum m.amount R = allocateSpec m R := by
  rw [allocGo_eq _ _ _ R m.amount h]
  unfold allocateSpec
  rw [decimals_two]

theorem map_amount_mk (c : Cur) :
    ∀ (L : List ℚ), (∀ s ∈ L, ∃ n : ℤ, s = (n : ℚ) / 100) →
      (L.map (fun s => mkMoney s c)).map Money.amount = L := by
  intro L
  induction L with
  | nil => intro _; rfl
  | cons s ss ih =>
    intro h
    simp only [List.map_cons]
    rw [mkMoney_fix_cents (h s (List.mem_cons_self s ss)),
      ih (fun y hy => h y (List.mem_cons_of_mem s hy))]

theorem allocate_ok (m : Money) (R : List ℚ) (h : R ≠ []) (hpos : ∀ r ∈ R, 0 < r) :
    Money.allocate m R = .ok (allocGo m.amount m.currency R.sum m.amount R) := by
  cases R with
  | nil => exact absurd rfl h
  | cons x xs =>
    unfold Money.allocate
    rw [if_neg]
    intro hco
    simp only [List.isEmpty_cons, Bool.false_or, List.all_cons, Bool.and_eq_true,
      decide_eq_true_eq] at hco
    exact absurd hco.1 (not_le.mpr (hpos x (List.mem_cons_self x xs)))

/-- C2.  Allocation conservation: on a quantized Money and a non-empty list
of positive weights, `allocate` succeeds and returns exactly the spec's
list (all but the last share truncated toward zero at the minor unit, the
last share the exact residue), one Money per weight, all of the input's
currency, summing exactly to the input amount; and concretely
`allocate(10000.00 USD, [60, 25, 15]) = [6000.00, 2500.00, 1500.00]`. -/
theorem allocate_conservation :
    (∀ (m : Money) (R : List ℚ), Quantized m → R ≠ [] → (∀ r ∈ R, 0 < r) →
        Money.allocate m R = .ok (allocateSpec m R) ∧
        (allocateSpec m R).length = R.length ∧
        ((allocateSpec m R).map Money.amount).sum = m.amount ∧
        (∀ x ∈ allocateSpec m R, x.currency = m.currency)) ∧
    Money.allocate (mkMoney 10000 Cur.USD) [60, 25, 15]
      = .ok [mkMoney 6000 Cur.USD, mkMoney 2500 Cur.USD, mkMoney 1500 Cur.USD] := by
  have key : ∀ (m : Money) (R : List ℚ), Quantized m → R ≠ [] → (∀ r ∈ R, 0 < r) →
      Money.allocate m R = .ok (allocateSpec m R) ∧
      (allocateSpec m R).length = R.length ∧
      ((allocateSpec m R).map Money.amount).sum = m.amount ∧
      (∀ x ∈ allocateSpec m R, x.currency = m.currency) := by
    intro m R hq hne hpos
    have hcents : ∀ s ∈ R.dropLast.map
        (fun r => qTruncTo (decimals m.currency) (m.amount * r / R.sum)),
        ∃ n : ℤ, s = (n : ℚ) / 100 := by
      intro s hs
      obtain ⟨r, _, rfl⟩ := List.mem_map.mp hs
      rw [decimals_two]
      exact qTruncTo2_cents _
    refine ⟨by rw [allocate_ok m R hne hpos, allocateSpec_eq_code m R hne], ?_, ?_, ?_⟩
    · unfold allocateSpec
      rw [List.length_append, List.length_map, List.length_map, List.length_dropLast]
      have : R.length ≠ 0 := fun h0 => hne (List.length_eq_zero.mp h0)
      simp only [List.length_singleton]
      omega
    · unfold allocateSpec
      rw [List.map_append, List.sum_append, map_amount_mk m.currency _ hcents]
      have h2 : (mkMoney
            (m.amount - (R.dropLast.map
              (fun r => qTruncTo (decimals m.currency) (m.amount * r / R.sum))).sum)
            m.currency).amount
          = m.amount - (R.dropLast.map
              (fun r => qTruncTo (decimals m.currency) (m.amount * r / R.sum))).sum :=
        mkMoney_fix_cents (cents_sub (quantized_amount_cents hq) (cents_listSum _ hcents))
      simp only [List.map_cons, List.map_nil, List.sum_cons, List.sum_nil, add_zero, h2]
      ring
    · intro x hx
      unfold allocateSpec at hx
      rcases List.mem_append.mp hx with hx | hx
      · obtain ⟨s, _, rfl⟩ := List.mem_map.mp hx
        exact mkMoney_currency _ _
      · rw [List.mem_singleton.mp hx]
        exact mkMoney_currency _ _
  refine ⟨key, ?_⟩
  have hamt : (mkMoney 10000 Cur.USD).amount = 10000 := by
    rw [mkMoney_amount]
    norm_num [qHalfUp, rhu, decimals]
  rw [(key (mkMoney 10000 Cur.USD) [60, 25, 15] (quantized_mkMoney _ _) (by simp)
    (by intro r hr; simp at hr; rcases hr with rfl | rfl | rfl <;> norm_num)).1]
  unfold allocateSpec
  norm_num [hamt, mkMoney_currency, qTruncTo, ratTrunc, decimals, List.dropLast]

/-- Witness for C2 at `10000.00 USD` allocated by `[60, 25, 15]`. -/
theorem allocate_conservation_witness :
    Money.allocate (mkMoney 10000 Cur.USD) [60, 25, 15]
        = .ok (allocateSpec (mkMoney 10000 Cur.USD) [60, 25, 15]) ∧
      ((allocateSpec (mkMoney 10000 Cur.USD) [60, 25, 15]).map Money.amount).sum
        = (mkMoney 10000 Cur.USD).amount := by
  have h := allocate_conservation.1 (mkMoney 10000 Cur.USD) [60, 25, 15]
    (quantized_mkMoney _ _) (by simp)
    (by intro r hr; simp at hr; rcases hr with rfl | rfl | rfl <;> norm_num)
  exact ⟨h.1, h.2.2.1⟩

/-! ### Every operation re-quantizes -/

theorem add_ok_shape {a b m' : Money} (h : Money.add a b = .ok m') :
    m' = mkMoney (a.amount + b.amount) a.currency := by
  unfold Money.add at h
  split at h
  · exact Except.noConfusion h
  · injection h with h
    exact h.symm

theorem sub_ok_shape {a b m' : Money} (h : Money.sub a b = .ok m') :
    m' = mkMoney (a.amount - b.amount) a.currency := by
  unfold Money.sub at h
  split at h
  · exact Except.noConfusion h
  · injection h with h
    exact h.symm

theorem bumpFirst_quantized (c : Cur) :
    ∀ (l : List Money) (k : ℕ) (l' : List Money), bumpFirst c k l = .ok l' →
      (∀ y ∈ l, Quantized y) → ∀ x ∈ l', Quantized x := by
  intro l
  induction l with
  | nil =>
    intro k l' h _
    cases k with
    | zero =>
      injection h with h
      subst h
      intro x hx
      exact absurd hx (List.not_mem_nil x)
    | succ k => exact Except.noConfusion h
  | cons y ys ih =>
    intro k l' h hall
    cases k with
    | zero =>
      injection h with h
      subst h
      exact hall
    | succ k =>
      simp only [bumpFirst] at h
      cases hadd : y.add (mkMoney (1 / 100) c) with
      | error e =>
        rw [hadd] at h
        exact Except.noConfusion h
      | ok y' =>
        rw [hadd] at h
        cases hrec : bumpFirst c k ys with
        | error e =>
          rw [hrec] at h
          exact Except.noConfusion h
        | ok ys' =>
          rw [hrec] at h
          injection h with h
          subst h
          intro x hx
          rcases List.mem_cons.mp hx with rfl | hx
          · rw [add_ok_shape hadd]
            exact quantized_mkMoney _ _
          · exact ih k ys' hrec (fun z hz => hall z (List.mem_cons_of_mem y hz)) x hx

theorem allocGo_quantized (a : ℚ) (c : Cur) (t : ℚ) :
    ∀ (R : List ℚ) (rem : ℚ) (x : Money), x ∈ allocGo a c t rem R → Quantized x := by
  intro R
  induction R with
  | nil =>
    intro rem x hx
    exact absurd hx (List.not_mem_nil x)
  | cons r rest ih =>
    intro rem x hx
    cases rest with
    | nil =>
      rw [show allocGo a c t rem [r] = [mkMoney rem c] from rfl] at hx
      rw [List.mem_singleton.mp hx]
      exact quantized_mkMoney _ _
    | cons r2 rest2 =>
      rw [show allocGo a c t rem (r :: r2 :: rest2)
            = mkMoney (qTruncTo 2 (a * r / t)) c ::
                allocGo a c t (rem - qTruncTo 2 (a * r / t)) (r2 :: rest2) from rfl] at hx
      rcases List.mem_cons.mp hx with rfl | hx
      · exact quantized_mkMoney _ _
      · exact ih _ x hx

/-- C4.  Quantization invariant: construction and every operation that
produces a Money (or a list or pair of them) yields amounts quantized to
exactly the currency's number of decimal places. -/
theorem quantized_after_ops :
    (∀ (a : ℚ) (c : Cur), Quantized (mkMoney a c)) ∧
    (∀ a b m', Money.add a b = .ok m' → Quantized m') ∧
    (∀ a x, Quantized (Money.addNum a x)) ∧
    (∀ a b m', Money.sub a b = .ok m' → Quantized m') ∧
    (∀ a x, Quantized (Money.subNum a x)) ∧
    (∀ a x, Quantized (Money.rsubNum a x)) ∧
    (∀ a x, Quantized (Money.mulNum a x)) ∧
    (∀ a x m', Money.divNum a x = .ok m' → Quantized m') ∧
    (∀ a x m', Money.floordivNum a x = .ok m' → Quantized m') ∧
    (∀ a b m', Money.modMoney a b = .ok m' → Quantized m') ∧
    (∀ a x m', Money.modNum a x = .ok m' → Quantized m') ∧
    (∀ a, Quantized (Money.neg a)) ∧
    (∀ a, Quantized (Money.abs a)) ∧
    (∀ m w l, Money.split m w = .ok l → ∀ x ∈ l, Quantized x) ∧
    (∀ m R l, Money.allocate m R = .ok l → ∀ x ∈ l, Quantized x) ∧
    (∀ m r p, Quantized (Money.compound_interest m r p)) ∧
    (∀ m r p m', Money.present_value m r p = .ok m' → Quantized m') ∧
    (∀ m r d q, Money.apply_discount m r = .ok (d, q) → Quantized d ∧ Quantized q) := by
  refine ⟨fun a c => quantized_mkMoney a c,
    fun a b m' h => by rw [add_ok_shape h]; exact quantized_mkMoney _ _,
    fun a x => quantized_mkMoney _ _,
    fun a b m' h => by rw [sub_ok_shape h]; exact quantized_mkMoney _ _,
    fun a x => quantized_mkMoney _ _,
    fun a x => quantized_mkMoney _ _,
    fun a x => quantized_mkMoney _ _,
    ?_, ?_, ?_, ?_,
    fun a => quantized_mkMoney _ _,
    fun a => quantized_mkMoney _ _,
    ?_, ?_, ?_, ?_, ?_⟩
  · intro a x m' h
    unfold Money.divNum at h
    split at h
    · exact Except.noConfusion h
    · injection h with h
      rw [← h]
      exact quantized_mkMoney _ _
  · intro a x m' h
    unfold Money.floordivNum at h
    split at h
    · exact Except.noConfusion h
    · injection h with h
      rw [← h]
      exact quantized_mkMoney _ _
  · intro a b m' h
    unfold Money.modMoney at h
    split at h
    · exact Except.noConfusion h
    · split at h
      · exact Except.noConfusion h
      · injection h with h
        rw [← h]
        exact quantized_mkMoney _ _
  · intro a x m' h
    unfold Money.modNum at h
    split at h
    · exact Except.noConfusion h
    · injection h with h
      rw [← h]
      exact quantized_mkMoney _ _
  · intro m w l h x hx
    unfold Money.split at h
    split at h
    · exact Except.noConfusion h
    · refine bumpFirst_quantized m.currency _ _ _ h ?_ x hx
      intro y hy
      rw [List.eq_of_mem_replicate hy]
      exact quantized_mkMoney _ _
  · intro m R l h x hx
    unfold Money.allocate at h
    split at h
    · exact Except.noConfusion h
    · injection h with h
      subst h
      exact allocGo_quantized _ _ _ _ _ x hx
  · intro m r p
    unfold Money.compound_interest
    split
    · exact quantized_mkMoney _ _
    · exact quantized_mkMoney _ _
  · intro m r p m' h
    unfold Money.present_value at h
    split at h
    · injection h with h
      rw [← h]
      exact quantized_mkMoney _ _
    · split at h
      · exact Except.noConfusion h
      · injection h with h
        rw [← h]
        exact quantized_mkMoney _ _
  · intro m r d q h
    unfold Money.apply_discount at h
    cases hsub : m.sub (m.mulNum r) with
    | error e =>
      rw [hsub] at h
      exact Except.noConfusion h
    | ok payable =>
      rw [hsub] at h
      injection h with h
      rw [show payable = d from congrArg Prod.fst h,
        show Money.mulNum m r = q from congrArg Prod.snd h] at hsub
      constructor
      · rw [sub_ok_shape hsub]
        exact quantized_mkMoney _ _
      · rw [← show Money.mulNum m r = q from congrArg Prod.snd h]
        exact quantized_mkMoney _ _

/-- Witness for C4: construction, Money+Money addition and negation at
concrete inputs. -/
theorem quantized_after_ops_witness :
    Quantized (mkMoney (1995 / 100) Cur.USD) ∧
    Quantized (mkMoney ((mkMoney (1995 / 100) Cur.USD).amount
      + (mkMoney 5 Cur.USD).amount) Cur.USD) ∧
    Quantized (Money.neg (mkMoney 5 Cur.EUR)) := by
  obtain ⟨h1, h2, _, _, _, _, _, _, _, _, _, hneg, _⟩ := quantized_after_ops
  exact ⟨h1 _ _, h2 (mkMoney (1995 / 100) Cur.USD) (mkMoney 5 Cur.USD) _ rfl, hneg _⟩

/-! ### Round-trip, mismatch errors, compound interest -/

/-- C5.  Add/subtract round-trip: for quantized same-currency Money `a`
and `b`, `(a + b) - b` succeeds and returns a Money equal to `a`, with the
intermediate sum itself quantized. -/
theorem add_sub_roundtrip :
    ∀ (a b : Money), Quantized a → Quantized b → a.currency = b.currency →
      ∃ s, Money.add a b = .ok s ∧ Quantized s ∧ Money.sub s b = .ok a := by
  intro a b ha hb hc
  have hadd : Money.add a b = .ok (mkMoney (a.amount + b.amount) a.currency) := by
    unfold Money.add
    rw [if_neg (by rw [hc]; exact fun h => h rfl)]
  refine ⟨mkMoney (a.amount + b.amount) a.currency, hadd, quantized_mkMoney _ _, ?_⟩
  have hs_amt : (mkMoney (a.amount + b.amount) a.currency).amount = a.amount + b.amount :=
    mkMoney_fix_cents (cents_add (quantized_amount_cents ha) (quantized_amount_cents hb))
  have hs_cur := mkMoney_currency (a.amount + b.amount) a.currency
  unfold Money.sub
  rw [if_neg (by rw [hs_cur, hc]; exact fun h => h rfl)]
  rw [hs_amt, hs_cur]
  rw [show a.amount + b.amount - b.amount = a.amount by ring]
  rw [show mkMoney a.amount a.currency = a from mkMoney_self ha]

/-- Witness for C5 at `19.95 USD` and `5.00 USD`. -/
theorem add_sub_roundtrip_witness :
    ∃ s, Money.add (mkMoney (1995 / 100) Cur.USD) (mkMoney 5 Cur.USD) = .ok s ∧
      Quantized s ∧ Money.sub s (mkMoney 5 Cur.USD) = .ok (mkMoney (1995 / 100) Cur.USD) :=
  add_sub_roundtrip _ _ (quantized_mkMoney _ _) (quantized_mkMoney _ _) rfl

/-- C6 counterexample: multiplication is a binary arithmetic operator, yet
between `10 USD` and `10 EUR` it fails with a `TypeError`, which is not an
`IncompatibleCurrency` failure naming the two currencies. -/
theorem mul_mismatch_not_incompatible :
    Money.mulMoney (mkMoney 10 Cur.USD) (mkMoney 10 Cur.EUR) = .error .typeMismatch ∧
    ∀ c₁ c₂ : Cur, (Except.error MErr.typeMismatch : Except MErr Money)
      ≠ .error (.incompatible c₁ c₂) := by
  refine ⟨rfl, ?_⟩
  intro c₁ c₂ h
  injection h with h
  exact MErr.noConfusion h

/-- C6 (amended).  Between two Money of differing currencies, addition,
subtraction, true division, floor division and modulo each fail with
`IncompatibleCurrency` naming both currencies (subtraction names the
subtrahend first, matching its message); multiplication of Money by Money
fails with a `TypeError` regardless of currency; in particular
`10.00 USD + 10.00 EUR` fails with `IncompatibleCurrency`. -/
theorem binary_mismatch_errors :
    (∀ a b : Money, a.currency ≠ b.currency →
        Money.add a b = .error (.incompatible a.currency b.currency) ∧
        Money.sub a b = .error (.incompatible b.currency a.currency) ∧
        Money.divMoney a b = .error (.incompatible a.currency b.currency) ∧
        Money.floordivMoney a b = .error (.incompatible a.currency b.currency) ∧
        Money.modMoney a b = .error (.incompatible a.currency b.currency)) ∧
    (∀ a b : Money, Money.mulMoney a b = .error .typeMismatch) ∧
    Money.add (mkMoney 10 Cur.USD) (mkMoney 10 Cur.EUR)
      = .error (.incompatible Cur.USD Cur.EUR) := by
  refine ⟨?_, fun a b => rfl, ?_⟩
  · intro a b h
    exact ⟨by unfold Money.add; rw [if_pos h],
      by unfold Money.sub; rw [if_pos h],
      by unfold Money.divMoney; rw [if_pos h],
      by unfold Money.floordivMoney; rw [if_pos h],
      by unfold Money.modMoney; rw [if_pos h]⟩
  · have h : (mkMoney 10 Cur.USD).currency ≠ (mkMoney 10 Cur.EUR).currency := by
      rw [mkMoney_currency, mkMoney_currency]
      exact fun h => Cur.noConfusion h
    unfold Money.add
    rw [if_pos h, mkMoney_currency, mkMoney_currency]

/-- Witness for C6 at `10 USD` minus `10 EUR`. -/
theorem binary_mismatch_errors_witness :
    Money.sub (mkMoney 10 Cur.USD) (mkMoney 10 Cur.EUR)
      = .error (.incompatible Cur.EUR Cur.USD) := by
  have h := (binary_mismatch_errors.1 (mkMoney 10 Cur.USD) (mkMoney 10 Cur.EUR)
    (by rw [mkMoney_currency, mkMoney_currency]; exact fun h => Cur.noConfusion h)).2.1
  rw [mkMoney_currency, mkMoney_currency] at h
  exact h

/-- C7.  Compound interest: `periods <= 0` short-circuits to a zero Money
of the input's currency without failing, and `periods > 0` returns
`money × ((1 + rate) ^ periods − 1)` reconstructed as Money of the same
currency. -/
theorem compound_interest_spec :
    ∀ (m : Money) (r : ℚ) (p : ℤ),
      (p ≤ 0 → Money.compound_interest m r p = mkMoney 0 m.currency ∧
        (Money.compound_interest m r p).amount = 0 ∧
        (Money.compound_interest m r p).currency = m.currency) ∧
      (0 < p → Money.compound_interest m r p
          = mkMoney (m.amount * ((1 + r) ^ p.toNat - 1)) m.currency) := by
  intro m r p
  constructor
  · intro hp
    have he : Money.compound_interest m r p = mkMoney 0 m.currency := by
      unfold Money.compound_interest
      rw [if_pos hp]
    refine ⟨he, ?_, by rw [he, mkMoney_currency]⟩
    rw [he, mkMoney_fix_cents ⟨0, by norm_num⟩]
  · intro hp
    unfold Money.compound_interest
    rw [if_neg (not_le.mpr hp)]
    rw [show m.amount * (1 + r) ^ p.toNat - m.amount
      = m.amount * ((1 + r) ^ p.toNat - 1) by ring]

/-- Witness for C7 at `1000 USD`, 5 percent, periods 0 and 2. -/
theorem compound_interest_spec_witness :
    (Money.compound_interest (mkMoney 1000 Cur.USD) (1 / 20) 0).amount = 0 ∧
    Money.compound_interest (mkMoney 1000 Cur.USD) (1 / 20) 2
      = mkMoney ((mkMoney 1000 Cur.USD).amount * ((1 + 1 / 20) ^ (2 : ℤ).toNat - 1)) Cur.USD := by
  constructor
  · exact ((compound_interest_spec (mkMoney 1000 Cur.USD) (1 / 20) 0).1 (by norm_num)).2.1
  · have h := (compound_interest_spec (mkMoney 1000 Cur.USD) (1 / 20) 2).2 (by norm_num)
    rw [mkMoney_currency] at h
    exact h

/-! ### Aggregation: sum, max, min -/

theorem sumGo_spec (c : Cur) :
    ∀ (xs : List Money) (acc : Money), acc.currency = c → Quantized acc →
      (∀ y ∈ xs, y.currency = c) → (∀ y ∈ xs, Quantized y) →
      ∃ s, sumGo acc xs = .ok s ∧ s.currency = c ∧ Quantized s ∧
        s.amount = acc.amount + (xs.map Money.amount).sum := by
  intro xs
  induction xs with
  | nil =>
    intro acc hc hq _ _
    exact ⟨acc, rfl, hc, hq, by simp⟩
  | cons y ys ih =>
    intro acc hc hq hcur hquant
    have hy_c : y.currency = c := hcur y (List.mem_cons_self y ys)
    have hy_q : Quantized y := hquant y (List.mem_cons_self y ys)
    have hadd : Money.add acc y = .ok (mkMoney (acc.amount + y.amount) acc.currency) := by
      unfold Money.add
      rw [if_neg (by rw [hc, hy_c]; exact fun h => h rfl)]
    have hs_amt : (mkMoney (acc.amount + y.amount) acc.currency).amount
        = acc.amount + y.amount :=
      mkMoney_fix_cents (cents_add (quantized_amount_cents hq) (quantized_amount_cents hy_q))
    obtain ⟨s, hgo, hsc, hsq, hsa⟩ := ih (mkMoney (acc.amount + y.amount) acc.currency)
      (by rw [mkMoney_currency]; exact hc) (quantized_mkMoney _ _)
      (fun z hz => hcur z (List.mem_cons_of_mem y hz))
      (fun z hz => hquant z (List.mem_cons_of_mem y hz))
    refine ⟨s, ?_, hsc, hsq, ?_⟩
    · simp only [sumGo, hadd]
      exact hgo
    · rw [hsa, hs_amt, List.map_cons, List.sum_cons]
      ring

theorem maxGo_spec (c : Cur) :
    ∀ (xs : List Money) (acc : Money), acc.currency = c → (∀ y ∈ xs, y.currency = c) →
      ∃ s, maxGo acc xs = .ok s ∧ s ∈ acc :: xs ∧ s.currency = c ∧
        acc.amount ≤ s.amount ∧ ∀ y ∈ xs, y.amount ≤ s.amount := by
  intro xs
  induction xs with
  | nil =>
    intro acc hc _
    exact ⟨acc, rfl, List.mem_cons_self _ _, hc, le_refl _, by simp⟩
  | cons y ys ih =>
    intro acc hc hcur
    have hy_c : y.currency = c := hcur y (List.mem_cons_self y ys)
    have hgt : Money.gtv y acc = .ok (decide (acc.amount < y.amount)) := by
      unfold Money.gtv
      rw [if_neg (by rw [hy_c, hc]; exact fun h => h rfl)]
    by_cases hlt : acc.amount < y.amount
    · have hred : (if decide (acc.amount < y.amount) then y else acc) = y := by
        simp [hlt]
      obtain ⟨s, hgo, hmem, hsc, hacc, hb⟩ :=
        ih y hy_c (fun z hz => hcur z (List.mem_cons_of_mem y hz))
      refine ⟨s, ?_, List.mem_cons_of_mem acc hmem, hsc, le_trans hlt.le hacc, ?_⟩
      · simp only [maxGo, hgt]
        rw [hred]
        exact hgo
      · intro z hz
        rcases List.mem_cons.mp hz with rfl | hz
        · exact hacc
        · exact hb z hz
    · have hred : (if decide (acc.amount < y.amount) then y else acc) = acc := by
        simp [hlt]
      obtain ⟨s, hgo, hmem, hsc, hacc, hb⟩ :=
        ih acc hc (fun z hz => hcur z (List.mem_cons_of_mem y hz))
      refine ⟨s, ?_, ?_, hsc, hacc, ?_⟩
      · simp only [maxGo, hgt]
        rw [hred]
        exact hgo
      · rcases List.mem_cons.mp hmem with rfl | hmem
        · exact List.mem_cons_self _ _
        · exact List.mem_cons_of_mem _ (List.mem_cons_of_mem _ hmem)
      · intro z hz
        rcases List.mem_cons.mp hz with rfl | hz
        · exact le_trans (not_lt.mp hlt) hacc
        · exact hb z hz

theorem minGo_spec (c : Cur) :
    ∀ (xs : List Money) (acc : Money), acc.currency = c → (∀ y ∈ xs, y.currency = c) →
      ∃ s, minGo acc xs = .ok s ∧ s ∈ acc :: xs ∧ s.currency = c ∧
        s.amount ≤ acc.amount ∧ ∀ y ∈ xs, s.amount ≤ y.amount := by
  intro xs
  induction xs with
  | nil =>
    intro acc hc _
    exact ⟨acc, rfl, List.mem_cons_self _ _, hc, le_refl _, by simp⟩
  | cons y ys ih =>
    intro acc hc hcur
    have hy_c : y.currency = c := hcur y (List.mem_cons_self y ys)
    have hlt' : Money.ltv y acc = .ok (decide (y.amount < acc.amount)) := by
      unfold Money.ltv
      rw [if_neg (by rw [hy_c, hc]; exact fun h => h rfl)]
    by_cases hlt : y.amount < acc.amount
    · have hred : (if decide (y.amount < acc.amount) then y else acc) = y := by
        simp [hlt]
      obtain ⟨s, hgo, hmem, hsc, hacc, hb⟩ :=
        ih y hy_c (fun z hz => hcur z (List.mem_cons_of_mem y hz))
      refine ⟨s, ?_, List.mem_cons_of_mem acc hmem, hsc, le_trans hacc hlt.le, ?_⟩
      · simp only [minGo, hlt']
        rw [hred]
        exact hgo
      · intro z hz
        rcases List.mem_cons.mp hz with rfl | hz
        · exact hacc
        · exact hb z hz
    · have hred : (if decide (y.amount < acc.amount) then y else acc) = acc := by
        simp [hlt]
      obtain ⟨s, hgo, hmem, hsc, hacc, hb⟩ :=
        ih acc hc (fun z hz => hcur z (List.mem_cons_of_mem y hz))
      refine ⟨s, ?_, ?_, hsc, hacc, ?_⟩
      · simp only [minGo, hlt']
        rw [hred]
        exact hgo
      · rcases List.mem_cons.mp hmem with rfl | hmem
        · exact List.mem_cons_self _ _
        · exact List.mem_cons_of_mem _ (List.mem_cons_of_mem _ hmem)
      · intro z hz
        rcases List.mem_cons.mp hz with rfl | hz
        · exact le_trans hacc (not_lt.mp hlt)
        · exact hb z hz

/-- C8.  Empty-list aggregation yields the explicit no-value result
`ok none` — not a zero Money, not a failure — while on a non-empty
same-currency list `sum` is the left fold of addition (its amount is the
sum of all amounts) and `max`/`min` return an element of the list that
bounds every element from above respectively below. -/
theorem aggregation_spec :
    Money.sum ([] : List Money) = .ok none ∧
    Money.max ([] : List Money) = .ok none ∧
    Money.min ([] : List Money) = .ok none ∧
    (∀ (x : Money) (xs : List Money), Quantized x → (∀ y ∈ xs, Quantized y) →
        (∀ y ∈ xs, y.currency = x.currency) →
        ∃ s, Money.sum (x :: xs) = .ok (some s) ∧ s.currency = x.currency ∧
          s.amount = x.amount + (xs.map Money.amount).sum) ∧
    (∀ (x : Money) (xs : List Money), (∀ y ∈ xs, y.currency = x.currency) →
        ∃ mx, Money.max (x :: xs) = .ok (some mx) ∧ mx ∈ x :: xs ∧
          ∀ y ∈ x :: xs, y.amount ≤ mx.amount) ∧
    (∀ (x : Money) (xs : List Money), (∀ y ∈ xs, y.currency = x.currency) →
        ∃ mn, Money.min (x :: xs) = .ok (some mn) ∧ mn ∈ x :: xs ∧
          ∀ y ∈ x :: xs, mn.amount ≤ y.amount) := by
  refine ⟨rfl, rfl, rfl, ?_, ?_, ?_⟩
  · intro x xs hq hqs hcs
    obtain ⟨s, hgo, hc, _, ha⟩ := sumGo_spec x.currency xs x rfl hq hcs hqs
    refine ⟨s, ?_, hc, ha⟩
    simp only [Money.sum, hgo]
  · intro x xs hcs
    obtain ⟨s, hgo, hmem, _, hx, hb⟩ := maxGo_spec x.currency xs x rfl hcs
    refine ⟨s, ?_, hmem, ?_⟩
    · simp only [Money.max, hgo]
    · intro y hy
      rcases List.mem_cons.mp hy with rfl | hy
      · exact hx
      · exact hb y hy
  · intro x xs hcs
    obtain ⟨s, hgo, hmem, _, hx, hb⟩ := minGo_spec x.currency xs x rfl hcs
    refine ⟨s, ?_, hmem, ?_⟩
    · simp only [Money.min, hgo]
    · intro y hy
      rcases List.mem_cons.mp hy with rfl | hy
      · exact hx
      · exact hb y hy

/-- Witness for C8 on the two-element list `[2.00 USD, 3.00 USD]`. -/
theorem aggregation_spec_witness :
    (∃ s, Money.sum [mkMoney 2 Cur.USD, mkMoney 3 Cur.USD] = .ok (some s) ∧
      s.currency = (mkMoney 2 Cur.USD).currency ∧
      s.amount = (mkMoney 2 Cur.USD).amount + ([mkMoney 3 Cur.USD].map Money.amount).sum) ∧
    (∃ mx, Money.max [mkMoney 2 Cur.USD, mkMoney 3 Cur.USD] = .ok (some mx) ∧
      mx ∈ [mkMoney 2 Cur.USD, mkMoney 3 Cur.USD] ∧
      ∀ y ∈ [mkMoney 2 Cur.USD, mkMoney 3 Cur.USD], y.amount ≤ mx.amount) ∧
    (∃ mn, Money.min [mkMoney 2 Cur.USD, mkMoney 3 Cur.USD] = .ok (some mn) ∧
      mn ∈ [mkMoney 2 Cur.USD, mkMoney 3 Cur.USD] ∧
      ∀ y ∈ [mkMoney 2 Cur.USD, mkMoney 3 Cur.USD], mn.amount ≤ y.amount) := by
  refine ⟨?_, ?_, ?_⟩
  · exact aggregation_spec.2.2.2.1 (mkMoney 2 Cur.USD) [mkMoney 3 Cur.USD]
      (quantized_mkMoney _ _)
      (by intro y hy; rw [List.mem_singleton.mp hy]; exact quantized_mkMoney _ _)
      (by intro y hy; rw [List.mem_singleton.mp hy]; rfl)
  · exact aggregation_spec.2.2.2.2.1 (mkMoney 2 Cur.USD) [mkMoney 3 Cur.USD]
      (by intro y hy; rw [List.mem_singleton.mp hy]; rfl)
  · exact aggregation_spec.2.2.2.2.2 (mkMoney 2 Cur.USD) [mkMoney 3 Cur.USD]
      (by intro y hy; rw [List.mem_singleton.mp hy]; rfl)

/-! ### Comparison and equality semantics -/

/-- C9 counterexample: equality against a non-Money operand (and against a
different-currency Money) returns the value `False` instead of failing —
the class defines no `__eq__`, so default identity equality applies and no
type or currency failure is possible. -/
theorem equality_nonmoney_returns_false :
    pyEq ⟨0, mkMoney 10 Cur.USD⟩ (.nonMoney 1) = false ∧
    pyEq ⟨0, mkMoney 10 Cur.USD⟩ (.moneyVal 1 (mkMoney 10 Cur.EUR)) = false :=
  ⟨rfl, rfl⟩

/-- C9 (amended).  The four ordering comparisons fail with a `TypeError`
on a non-Money operand and with `IncompatibleCurrency` on a Money operand
of a different currency; equality never fails (it is identity-based); and
on a same-currency Money operand `<=` and `>=` evaluate to
`(< or ==)` and `(> or ==)` respectively. -/
theorem comparison_errors_amended :
    (∀ (a : MoneyObj) (i : ℕ),
        pyLt a (.nonMoney i) = .error .typeMismatch ∧
        pyLe a (.nonMoney i) = .error .typeMismatch ∧
        pyGt a (.nonMoney i) = .error .typeMismatch ∧
        pyGe a (.nonMoney i) = .error .typeMismatch) ∧
    (∀ (a : MoneyObj) (i : ℕ) (m : Money), a.val.currency ≠ m.currency →
        pyLt a (.moneyVal i m) = .error (.incompatible a.val.currency m.currency) ∧
        pyLe a (.moneyVal i m) = .error (.incompatible a.val.currency m.currency) ∧
        pyGt a (.moneyVal i m) = .error (.incompatible a.val.currency m.currency) ∧
        pyGe a (.moneyVal i m) = .error (.incompatible a.val.currency m.currency)) ∧
    (∀ (a : MoneyObj) (i : ℕ) (m : Money), a.val.currency = m.currency →
        pyLe a (.moneyVal i m)
          = .ok (decide (a.val.amount < m.amount) || pyEq a (.moneyVal i m)) ∧
        pyGe a (.moneyVal i m)
          = .ok (decide (m.amount < a.val.amount) || pyEq a (.moneyVal i m))) := by
  refine ⟨fun a i => ⟨rfl, rfl, rfl, rfl⟩, ?_, ?_⟩
  · intro a i m h
    have hlt : pyLt a (.moneyVal i m) = .error (.incompatible a.val.currency m.currency) := by
      show Money.ltv a.val m = _
      unfold Money.ltv
      rw [if_pos h]
    have hgt : pyGt a (.moneyVal i m) = .error (.incompatible a.val.currency m.currency) := by
      show Money.gtv a.val m = _
      unfold Money.gtv
      rw [if_pos h]
    refine ⟨hlt, ?_, hgt, ?_⟩
    · simp only [pyLe, hlt]
    · simp only [pyGe, hgt]
  · intro a i m h
    have hlt : pyLt a (.moneyVal i m) = .ok (decide (a.val.amount < m.amount)) := by
      show Money.ltv a.val m = _
      unfold Money.ltv
      rw [if_neg (by rw [h]; exact fun hh => hh rfl)]
    have hgt : pyGt a (.moneyVal i m) = .ok (decide (m.amount < a.val.amount)) := by
      show Money.gtv a.val m = _
      unfold Money.gtv
      rw [if_neg (by rw [h]; exact fun hh => hh rfl)]
    constructor
    · simp only [pyLe, hlt]
    · simp only [pyGe, hgt]

/-- Witness for C9 at concrete operands. -/
theorem comparison_errors_amended_witness :
    pyLt ⟨0, mkMoney 10 Cur.USD⟩ (.nonMoney 1) = .error .typeMismatch ∧
    pyLe ⟨0, mkMoney 10 Cur.USD⟩ (.moneyVal 1 (mkMoney 10 Cur.EUR))
      = .error (.incompatible (mkMoney 10 Cur.USD).currency (mkMoney 10 Cur.EUR).currency) ∧
    pyGe ⟨2, mkMoney 10 Cur.USD⟩ (.moneyVal 3 (mkMoney 10 Cur.USD))
      = .ok (decide ((mkMoney 10 Cur.USD).amount < (mkMoney 10 Cur.USD).amount)
          || pyEq ⟨2, mkMoney 10 Cur.USD⟩ (.moneyVal 3 (mkMoney 10 Cur.USD))) := by
  refine ⟨(comparison_errors_amended.1 ⟨0, mkMoney 10 Cur.USD⟩ 1).1, ?_, ?_⟩
  · exact (comparison_errors_amended.2.1 ⟨0, mkMoney 10 Cur.USD⟩ 1 (mkMoney 10 Cur.EUR)
      (by rw [mkMoney_currency, mkMoney_currency]; exact fun h => Cur.noConfusion h)).2.1
  · exact (comparison_errors_amended.2.2 ⟨2, mkMoney 10 Cur.USD⟩ 3 (mkMoney 10 Cur.USD) rfl).2

/-- C10.  Equality on Money is bare object identity: it returns `False`
for distinct objects even with equal amount and currency, returns `False`
(without failing) on non-Money operands, and consequently `<=` and `>=`
between distinct same-currency Money objects of equal amounts both
evaluate to `False`. -/
theorem eq_identity_semantics :
    (∀ (a b : MoneyObj), a.oid ≠ b.oid → a.val = b.val →
        pyEq a (.moneyVal b.oid b.val) = false) ∧
    (∀ (a : MoneyObj) (i : ℕ), a.oid ≠ i → pyEq a (.nonMoney i) = false) ∧
    (∀ (a b : MoneyObj), a.oid ≠ b.oid → a.val.currency = b.val.currency →
        a.val.amount = b.val.amount →
        pyLe a (.moneyVal b.oid b.val) = .ok false ∧
        pyGe a (.moneyVal b.oid b.val) = .ok false) := by
  refine ⟨?_, ?_, ?_⟩
  · intro a b hne _
    exact beq_eq_false_iff_ne.mpr hne
  · intro a i hne
    exact beq_eq_false_iff_ne.mpr hne
  · intro a b hne hc ha
    have hlt : pyLt a (.moneyVal b.oid b.val) = .ok (decide (a.val.amount < b.val.amount)) := by
      show Money.ltv a.val b.val = _
      unfold Money.ltv
      rw [if_neg (by rw [hc]; exact fun hh => hh rfl)]
    have hgt : pyGt a (.moneyVal b.oid b.val) = .ok (decide (b.val.amount < a.val.amount)) := by
      show Money.gtv a.val b.val = _
      unfold Money.gtv
      rw [if_neg (by rw [hc]; exact fun hh => hh rfl)]
    have heq : pyEq a (.moneyVal b.oid b.val) = false := beq_eq_false_iff_ne.mpr hne
    have hd1 : decide (a.val.amount < b.val.amount) = false :=
      decide_eq_false (by rw [ha]; exact lt_irrefl _)
    have hd2 : decide (b.val.amount < a.val.amount) = false :=
      decide_eq_false (by rw [ha]; exact lt_irrefl _)
    constructor
    · simp only [pyLe, hlt, hd1, heq]
      rfl
    · simp only [pyGe, hgt, hd2, heq]
      rfl

/-- Witness for C10: two Money objects with distinct identities and equal
value `10.00 USD`. -/
theorem eq_identity_semantics_witness :
    pyEq ⟨0, mkMoney 10 Cur.USD⟩ (.moneyVal 1 (mkMoney 10 Cur.USD)) = false ∧
    pyLe ⟨0, mkMoney 10 Cur.USD⟩ (.moneyVal 1 (mkMoney 10 Cur.USD)) = .ok false ∧
    pyGe ⟨0, mkMoney 10 Cur.USD⟩ (.moneyVal 1 (mkMoney 10 Cur.USD)) = .ok false := by
  have h3 := eq_identity_semantics.2.2 ⟨0, mkMoney 10 Cur.USD⟩ ⟨1, mkMoney 10 Cur.USD⟩
    (by decide) rfl rfl
  exact ⟨eq_identity_semantics.1 ⟨0, mkMoney 10 Cur.USD⟩ ⟨1, mkMoney 10 Cur.USD⟩
    (by decide) rfl, h3.1, h3.2⟩
